import Mathlib

/-!
Verification of `scripts/genvert.py` (tomachalek/vertigo).

The script has two parts:

* `encode_num`: converts a non-negative integer into a token of at most 8
  symbols over a fixed 62-character alphabet, least-significant digit first.
  The quotient update in the Python source is `int(hex_num / 62)`, i.e. true
  (IEEE-754 double) division followed by truncation toward zero; we model that
  division exactly as round-to-nearest, ties-to-even, at 53 bits of precision
  (`pyIntDiv`), and model CPython's OverflowError — raised when the rounded
  quotient leaves the finite double range, at `2^1024` — through the fallible
  variants `pyIntDivO` and `encode_numO`.
* the `__main__` emitter: prints a fixed pseudo-XML document for i = 1..20 to
  standard output.  We model the sequence of printed lines as a `List String`
  (the `time.sleep(0.004)` call writes nothing and carries no state, so it has
  no counterpart in the pure model).
-/

/-- `log2fuel fuel n` computes the floor of the base-2 logarithm of `n`
(for `1 ≤ n ≤ fuel`), by structural recursion on the fuel so that the kernel
can evaluate it. -/
def log2fuel : ℕ → ℕ → ℕ
  | 0, _ => 0
  | fuel + 1, n => if 2 ≤ n then log2fuel fuel (n / 2) + 1 else 0

/-- Floor of the base-2 logarithm (`ilog2 n = k` iff `2^k ≤ n < 2^(k+1)`, for
`n ≥ 1`). -/
def ilog2 (n : ℕ) : ℕ := log2fuel n n

/-- `iclog2fuel fuel c` computes the ceiling of the base-2 logarithm of `c`
(the least `s` with `c ≤ 2^s`), by structural recursion on the fuel. -/
def iclog2fuel : ℕ → ℕ → ℕ
  | 0, _ => 0
  | fuel + 1, c => if 2 ≤ c then iclog2fuel fuel ((c + 1) / 2) + 1 else 0

/-- Ceiling of the base-2 logarithm: least `s` with `c ≤ 2^s`. -/
def iclog2 (c : ℕ) : ℕ := iclog2fuel c c

/-- `flog2 a b` is the floor of the base-2 logarithm of the positive rational
`a / b` (for `a, b ≥ 1`): the unique `e : ℤ` with `2^e ≤ a/b < 2^(e+1)`. -/
def flog2 (a b : ℕ) : ℤ :=
  if b ≤ a then (ilog2 (a / b) : ℤ) else -(iclog2 ((b + a - 1) / a) : ℤ)

/-- Round the rational `p / q` (with `q ≥ 1`) to the nearest integer, ties to
even. -/
def ne2 (p q : ℕ) : ℕ :=
  if 2 * (p % q) < q then p / q
  else if q < 2 * (p % q) then p / q + 1
  else if p / q % 2 = 0 then p / q else p / q + 1

/-- Model of CPython's `int(a / b)` for non-negative integers `a`, `b ≥ 1`:
true division produces the IEEE-754 binary64 value nearest to the exact
rational `a / b` (round to nearest, ties to even, 53-bit significand,
exponent unbounded), and `int` truncates toward zero.

Writing `e` for the floor of log2 of `a/b`, the representable grid around
`a/b` has spacing `2^(e-52)`; the rounded value is `ne2 p q * 2^(e-52)` where
`p / q` is the rational `(a/b) * 2^(52-e)` scaled into `[2^52, 2^53]`, and the
final truncation is a floor because everything is non-negative. -/
def pyIntDiv (a b : ℕ) : ℕ :=
  if a = 0 ∨ b = 0 then 0
  else if 52 ≤ flog2 a b then
    ne2 (a * 2 ^ (52 - flog2 a b).toNat) (b * 2 ^ (flog2 a b - 52).toNat) *
      2 ^ (flog2 a b - 52).toNat
  else
    ne2 (a * 2 ^ (52 - flog2 a b).toNat) (b * 2 ^ (flog2 a b - 52).toNat) /
      2 ^ (52 - flog2 a b).toNat

/-- The fixed 62-symbol alphabet of `genvert.py`:
`[chr(x) for x in range(ord('a'), ord('z') + 1)]` then the uppercase range,
then the ten decimal digit strings. -/
def KEY_ALPHABET : List Char :=
  (List.range 26).map (fun x => Char.ofNat (97 + x)) ++
    (List.range 26).map (fun x => Char.ofNat (65 + x)) ++
    (List.range 10).map (fun i => Char.ofNat (48 + i))

/-- The `while hex_num > 0 and len(ans) < 8` loop of `encode_num`, with the
remaining symbol budget `8 - len(ans)` as fuel: take `hex_num % 62` as the
next symbol and continue with `int(hex_num / 62)`. -/
def encodeLoop : ℕ → ℕ → List Char
  | 0, _ => []
  | fuel + 1, hex_num =>
    if 0 < hex_num then
      KEY_ALPHABET.getD (hex_num % KEY_ALPHABET.length) ' ' ::
        encodeLoop fuel (pyIntDiv hex_num KEY_ALPHABET.length)
    else []

/-- `encode_num` of `genvert.py` on non-negative inputs: the token (as a list
of characters, in emission order: least-significant digit first). -/
def encode_num (hex_num : ℕ) : List Char := encodeLoop 8 hex_num

/-- `encode_num` on arbitrary Python integers.  The loop guard `hex_num > 0`
means the body only ever divides positive values, so the quotient update can
be expressed through the non-negative model. -/
def encodeLoopZ : ℕ → ℤ → List Char
  | 0, _ => []
  | fuel + 1, hex_num =>
    if 0 < hex_num then
      KEY_ALPHABET.getD ((hex_num % 62).toNat) ' ' ::
        encodeLoopZ fuel (pyIntDiv hex_num.toNat KEY_ALPHABET.length : ℕ)
    else []

/-- `encode_num` of `genvert.py`, with the full Python integer domain. -/
def encode_numZ (hex_num : ℤ) : List Char := encodeLoopZ 8 hex_num

/-- CPython's `int(a / b)` together with its OverflowError path: true
division raises exactly when the correctly rounded quotient reaches
`2^1024`, the first value beyond the largest finite binary64 double (for
such magnitudes the rounded quotient is an integer, namely `pyIntDiv a b`,
so the check is a plain comparison); otherwise `int(a / b)` returns
`pyIntDiv a b`. -/
def pyIntDivO (a b : ℕ) : Option ℕ :=
  if 2 ^ 1024 ≤ pyIntDiv a b then none else some (pyIntDiv a b)

/-- The `encode_num` loop with the OverflowError path: the Python body runs
`ans.append(...)` and then `hex_num = int(hex_num / 62)` on every iteration
(including the one that fills the 8th symbol), and a raise discards the
whole call's result. -/
def encodeLoopO : ℕ → ℕ → Option (List Char)
  | 0, _ => some []
  | fuel + 1, hex_num =>
    if 0 < hex_num then
      (pyIntDivO hex_num KEY_ALPHABET.length).bind
        (fun q =>
          (encodeLoopO fuel q).map
            (fun t => KEY_ALPHABET.getD (hex_num % KEY_ALPHABET.length) ' ' :: t))
    else some []

/-- `encode_num` of `genvert.py` with the OverflowError path made explicit:
`some token` when every division stays inside the double range, `none` when
the program raises and returns nothing. -/
def encode_numO (hex_num : ℕ) : Option (List Char) := encodeLoopO 8 hex_num

/-- Inverse mixed-radix transform from the spec: map each symbol to its
alphabet index and weight the symbol at position `k` by `62^k`. -/
def decode : List Char → ℕ
  | [] => 0
  | c :: rest => KEY_ALPHABET.indexOf c + 62 * decode rest

/-- Reference loop with exact floor division, for comparison with the
float-based quotient update: the true base-62 digits of the input,
least-significant first, up to 8 of them. -/
def exactLoop : ℕ → ℕ → List Char
  | 0, _ => []
  | fuel + 1, hex_num =>
    if 0 < hex_num then
      KEY_ALPHABET.getD (hex_num % 62) ' ' :: exactLoop fuel (hex_num / 62)
    else []

/-- Exact base-62 encoder (the spec's "true base-62 digits of n,
least-significant first, up to 8 of them"). -/
def encodeExact (hex_num : ℕ) : List Char := exactLoop 8 hex_num

/-- The data line `'{}\t{}\tdata:{}'.format(i, encode_num(i), i)`. -/
def dataLine (i : ℕ) : String :=
  toString i ++ "\t" ++ String.mk (encode_num i) ++ "\tdata:" ++ toString i

/-- The paragraph-opening line `f'<p id="par{p_idx}">'`. -/
def pOpenLine (p_idx : ℕ) : String :=
  "<p id=\"par" ++ toString p_idx ++ "\">"

/-- One iteration of the emitter loop: state is the paragraph counter
`p_idx` and the lines printed so far. -/
def emitStep (st : ℕ × List String) (i : ℕ) : ℕ × List String :=
  let out := st.2
  let p_idx := st.1
  let (p_idx, out) :=
    if (i - 1) % 10 = 0 then
      (p_idx + 1, out ++ (if 1 < p_idx then ["</p>"] else []) ++ [pOpenLine p_idx])
    else (p_idx, out)
  let out := out ++ [dataLine i]
  let out := if i % 5 = 0 then out ++ ["<nl />"] else out
  let out := if i % 5 = 2 then out ++ ["<m/>"] else out
  (p_idx, out)

/-- The lines printed by the `__main__` block: the root opening tag, the loop
over `range(1, 21)`, then the root closing tag. -/
def emitted : List String :=
  ((List.range' 1 20).foldl emitStep (1, ["<doc id=\"foo\">"])).2 ++ ["</doc>"]

/-- A data line is recognized by the tab separators (no tag line contains a
tab). -/
def isDataLine (s : String) : Bool := s.toList.any (fun c => c = '\t')

/-- A paragraph-opening line is one starting with the six characters
of the fixed opening-tag head. -/
def isPOpen (s : String) : Bool := s.toList.take 6 == "<p id=".toList

/-- The lines of paragraph block `p`: everything after the opening tag
`<p id="par{p}">` up to the first paragraph-closing tag, next
paragraph-opening tag, or the root-closing tag. -/
def blockLines (p : ℕ) : List String :=
  ((emitted.dropWhile (fun s => !(s == "<p id=\"par" ++ toString p ++ "\">"))).drop 1).takeWhile
    (fun s => !(isPOpen s) && !(s == "</p>") && !(s == "</doc>"))

/-- The line emitted immediately after the first occurrence of `s`. -/
def lineAfter (s : String) : Option String :=
  match emitted.dropWhile (fun t => !(t == s)) with
  | _ :: t :: _ => some t
  | _ => none


lemma log2fuel_spec : ∀ fuel n, 1 ≤ n → n ≤ fuel →
    2 ^ log2fuel fuel n ≤ n ∧ n < 2 ^ (log2fuel fuel n + 1) := by
  intro fuel
  induction fuel with
  | zero => intro n h1 h2; omega
  | succ f ih =>
    intro n h1 h2
    rw [log2fuel]
    by_cases h : 2 ≤ n
    · rw [if_pos h]
      have hrec := ih (n / 2) (by omega) (by omega)
      constructor
      · have : 2 ^ (log2fuel f (n / 2) + 1) = 2 * 2 ^ log2fuel f (n / 2) := by ring
        rw [this]; omega
      · have : 2 ^ (log2fuel f (n / 2) + 1 + 1) = 2 * 2 ^ (log2fuel f (n / 2) + 1) := by ring
        rw [this]; omega
    · rw [if_neg h]; simp; omega

lemma ilog2_spec (n : ℕ) (h : 1 ≤ n) : 2 ^ ilog2 n ≤ n ∧ n < 2 ^ (ilog2 n + 1) :=
  log2fuel_spec n n h le_rfl

lemma iclog2fuel_spec : ∀ fuel c, c ≤ fuel + 1 →
    c ≤ 2 ^ iclog2fuel fuel c ∧ (2 ≤ c → 2 ^ (iclog2fuel fuel c - 1) < c) := by
  intro fuel
  induction fuel with
  | zero =>
    intro c hc
    simp only [iclog2fuel]
    norm_num
    omega
  | succ f ih =>
    intro c hc
    rw [iclog2fuel]
    by_cases h : 2 ≤ c
    · rw [if_pos h]
      have hrec := ih ((c + 1) / 2) (by omega)
      constructor
      · have : 2 ^ (iclog2fuel f ((c + 1) / 2) + 1) = 2 * 2 ^ iclog2fuel f ((c + 1) / 2) := by ring
        rw [this]; omega
      · intro _
        simp only [Nat.add_sub_cancel]
        by_cases h2 : 2 ≤ (c + 1) / 2
        · have := hrec.2 h2
          have hs : 1 ≤ iclog2fuel f ((c + 1) / 2) := by
            by_contra hs
            push_neg at hs
            have h0 : iclog2fuel f ((c + 1) / 2) = 0 := by omega
            have hup := hrec.1
            rw [h0] at hup
            norm_num at hup
            omega
          have : 2 ^ iclog2fuel f ((c + 1) / 2) = 2 * 2 ^ (iclog2fuel f ((c + 1) / 2) - 1) := by
            rw [← pow_succ']
            congr 1
            omega
          omega
        · have hc2 : c = 2 := by omega
          have : iclog2fuel f ((c + 1) / 2) = iclog2fuel f 1 := by rw [hc2]
          have h1 : iclog2fuel f 1 = 0 := by
            cases f <;> simp [iclog2fuel]
          subst hc2
          rw [show (2 + 1) / 2 = 1 from rfl, h1]
          norm_num
    · rw [if_neg h]
      constructor
      · simpa using by omega
      · omega

lemma iclog2_spec (c : ℕ) : c ≤ 2 ^ iclog2 c ∧ (2 ≤ c → 2 ^ (iclog2 c - 1) < c) :=
  iclog2fuel_spec c c (by omega)

lemma ne2_bounds (p q : ℕ) (hq : 1 ≤ q) :
    2 * p ≤ 2 * q * ne2 p q + q ∧ 2 * q * ne2 p q ≤ 2 * p + q := by
  have hdm := Nat.div_add_mod p q
  have hlt := Nat.mod_lt p (show 0 < q by omega)
  have e1 : 2 * q * (p / q) = 2 * (q * (p / q)) := by ring
  have e2 : 2 * q * (p / q + 1) = 2 * (q * (p / q)) + 2 * q := by ring
  unfold ne2
  split_ifs <;> constructor <;> omega

lemma ne2_exact (p q : ℕ) (hq : 1 ≤ q) (h : p % q = 0) : ne2 p q = p / q := by
  unfold ne2
  rw [h, if_pos (by omega)]

lemma flog2_ge_window (a b : ℕ) (hb : 1 ≤ b) (hba : b ≤ a) :
    flog2 a b = (ilog2 (a / b) : ℤ) ∧
      b * 2 ^ ilog2 (a / b) ≤ a ∧ a < b * 2 ^ (ilog2 (a / b) + 1) := by
  have hm1 : 1 ≤ a / b := (Nat.one_le_div_iff (by omega)).mpr hba
  obtain ⟨hlo, hhi⟩ := ilog2_spec (a / b) hm1
  refine ⟨by rw [flog2, if_pos hba], ?_, ?_⟩
  · calc b * 2 ^ ilog2 (a / b) ≤ b * (a / b) := Nat.mul_le_mul_left b hlo
      _ ≤ a := Nat.mul_div_le a b
  · have hdm := Nat.div_add_mod a b
    have hmod := Nat.mod_lt a (show 0 < b by omega)
    have hstep : b * (a / b + 1) = b * (a / b) + b := by ring
    calc a < b * (a / b + 1) := by omega
      _ ≤ b * 2 ^ (ilog2 (a / b) + 1) := Nat.mul_le_mul_left b (by omega)

lemma flog2_lt_window (a b : ℕ) (ha : 1 ≤ a) (hab : a < b) :
    flog2 a b = -(iclog2 ((b + a - 1) / a) : ℤ) ∧ 1 ≤ iclog2 ((b + a - 1) / a) ∧
      b ≤ a * 2 ^ iclog2 ((b + a - 1) / a) ∧
      a * 2 ^ (iclog2 ((b + a - 1) / a) - 1) < b := by
  have hdm := Nat.div_add_mod (b + a - 1) a
  have hmod := Nat.mod_lt (b + a - 1) (show 0 < a by omega)
  have hac_ub := Nat.mul_div_le (b + a - 1) a
  set c := (b + a - 1) / a with hc
  have hac_lb : b ≤ a * c := by omega
  have hc2 : 2 ≤ c := by
    by_contra hcon
    push_neg at hcon
    have : a * c ≤ a * 1 := Nat.mul_le_mul_left a (by omega)
    omega
  obtain ⟨hcle, hclow⟩ := iclog2_spec c
  have hs1 : 1 ≤ iclog2 c := by
    by_contra hcon
    push_neg at hcon
    have h0 : iclog2 c = 0 := by omega
    rw [h0] at hcle
    omega
  refine ⟨by rw [flog2, if_neg (by omega)], hs1, ?_, ?_⟩
  · calc b ≤ a * c := hac_lb
      _ ≤ a * 2 ^ iclog2 c := Nat.mul_le_mul_left a hcle
  · have h1 : 2 ^ (iclog2 c - 1) ≤ c - 1 := by have := hclow hc2; omega
    have h2 : a * (c - 1) + a = a * c := by
      rw [← Nat.mul_succ]
      congr 1
      omega
    calc a * 2 ^ (iclog2 c - 1) ≤ a * (c - 1) := Nat.mul_le_mul_left a h1
      _ < b := by omega

lemma main_window (a : ℕ) (ha : 1 ≤ a) (h53 : a ≤ 2 ^ 53) :
    ∃ t : ℕ, (52 - flog2 a 62).toNat = t ∧ (flog2 a 62 - 52).toNat = 0 ∧
      ¬ (52 ≤ flog2 a 62) ∧ 62 * 2 ^ 52 ≤ a * 2 ^ t ∧ a * 2 ^ t < 62 * 2 ^ 53 := by
  by_cases hge : 62 ≤ a
  · obtain ⟨hfe, hlo, hhi⟩ := flog2_ge_window a 62 (by norm_num) hge
    set E := ilog2 (a / 62) with hE
    have hdiv1 : 1 ≤ a / 62 := (Nat.one_le_div_iff (by norm_num)).mpr hge
    have hdiv : a / 62 < 2 ^ 48 := by
      have hlt : a < 2 ^ 48 * 62 := by omega
      exact Nat.div_lt_of_lt_mul hlt
    have hEle : E ≤ 47 := by
      have h2 := (ilog2_spec (a / 62) hdiv1).1
      by_contra hE48
      push_neg at hE48
      have : (2 : ℕ) ^ 48 ≤ 2 ^ E := Nat.pow_le_pow_right (by norm_num) hE48
      omega
    refine ⟨52 - E, by rw [hfe]; omega, by rw [hfe]; omega, by rw [hfe]; omega, ?_, ?_⟩
    · have := Nat.mul_le_mul_right (2 ^ (52 - E)) hlo
      have hpow : 2 ^ E * 2 ^ (52 - E) = 2 ^ 52 := by
        rw [← pow_add]
        congr 1
        omega
      calc 62 * 2 ^ 52 = 62 * 2 ^ E * 2 ^ (52 - E) := by rw [mul_assoc, hpow]
        _ ≤ a * 2 ^ (52 - E) := this
    · have := Nat.mul_le_mul_right (2 ^ (52 - E)) (show a + 1 ≤ 62 * 2 ^ (E + 1) by omega)
      have hpow : 2 ^ (E + 1) * 2 ^ (52 - E) = 2 ^ 53 := by
        rw [← pow_add]
        congr 1
        omega
      calc a * 2 ^ (52 - E) < (a + 1) * 2 ^ (52 - E) := by
            have h1 : 1 ≤ 2 ^ (52 - E) := Nat.one_le_two_pow
            nlinarith
        _ ≤ 62 * 2 ^ (E + 1) * 2 ^ (52 - E) := this
        _ = 62 * 2 ^ 53 := by rw [mul_assoc, hpow]
  · push_neg at hge
    obtain ⟨hfe, hs1, hlo, hhi⟩ := flog2_lt_window a 62 ha hge
    set s := iclog2 ((62 + a - 1) / a) with hs
    refine ⟨52 + s, by rw [hfe]; omega, by rw [hfe]; omega, by rw [hfe]; omega, ?_, ?_⟩
    · have := Nat.mul_le_mul_right (2 ^ 52) hlo
      calc 62 * 2 ^ 52 ≤ a * 2 ^ s * 2 ^ 52 := this
        _ = a * 2 ^ (52 + s) := by rw [mul_assoc, ← pow_add]; ring_nf
    · have h61 : a * 2 ^ (s - 1) ≤ 61 := by omega
      have := Nat.mul_le_mul_right (2 ^ 53) h61
      have hpow : 2 ^ (s - 1) * 2 ^ 53 = 2 ^ (52 + s) := by
        rw [← pow_add]
        congr 1
        omega
      calc a * 2 ^ (52 + s) = a * 2 ^ (s - 1) * 2 ^ 53 := by rw [mul_assoc, hpow]
        _ ≤ 61 * 2 ^ 53 := this
        _ < 62 * 2 ^ 53 := by norm_num

lemma pyIntDiv_eq_div (a : ℕ) (h53 : a ≤ 2 ^ 53) : pyIntDiv a 62 = a / 62 := by
  rcases Nat.eq_zero_or_pos a with h0 | hpos
  · subst h0
    simp [pyIntDiv]
  · obtain ⟨t, ht_eq, ht0, hlt52, hwlo, hwhi⟩ := main_window a hpos h53
    rw [pyIntDiv, if_neg (by omega), if_neg hlt52, ht_eq, ht0, pow_zero, mul_one]
    obtain ⟨hb1, hb2⟩ := ne2_bounds (a * 2 ^ t) 62 (by norm_num)
    set N := ne2 (a * 2 ^ t) 62 with hN
    have hb1' : 2 * (a * 2 ^ t) ≤ 124 * N + 62 := by omega
    have hb2' : 124 * N ≤ 2 * (a * 2 ^ t) + 62 := by omega
    have ht5 : 32 ≤ 2 ^ t := by
      have hmul : a * 2 ^ t ≤ 2 ^ 53 * 2 ^ t := Nat.mul_le_mul_right (2 ^ t) h53
      have h31 : 31 * 2 ^ 53 ≤ 2 ^ 53 * 2 ^ t := by omega
      have h31' : 31 ≤ 2 ^ t := by
        have := Nat.le_of_mul_le_mul_left (by omega : 2 ^ 53 * 31 ≤ 2 ^ 53 * 2 ^ t) (by positivity)
        omega
      have ht5' : 5 ≤ t := by
        by_contra hc
        push_neg at hc
        interval_cases t <;> omega
      calc (32 : ℕ) = 2 ^ 5 := by norm_num
        _ ≤ 2 ^ t := Nat.pow_le_pow_right (by norm_num) ht5'
    have hdm62 := Nat.div_add_mod a 62
    have hm62 := Nat.mod_lt a (show 0 < 62 by norm_num)
    by_cases hr : a % 62 = 0
    · have hdvd : a * 2 ^ t % 62 = 0 := by
        have : a * 2 ^ t = 62 * (a / 62 * 2 ^ t) := by
          rw [← mul_assoc]
          congr 1
          omega
        omega
      have hNval : N = a / 62 * 2 ^ t := by
        rw [hN, ne2_exact _ _ (by norm_num) hdvd]
        rw [show a * 2 ^ t = 62 * (a / 62 * 2 ^ t) by rw [← mul_assoc]; congr 1; omega]
        exact Nat.mul_div_cancel_left _ (by norm_num)
      rw [hNval]
      exact Nat.mul_div_cancel _ (by positivity)
    · have hkey : a * 2 ^ t = 62 * (a / 62 * 2 ^ t) + a % 62 * 2 ^ t := by
        rw [← mul_assoc, ← Nat.add_mul]
        congr 1
        omega
      have hrlo : 2 ^ t ≤ a % 62 * 2 ^ t := Nat.le_mul_of_pos_left _ (by omega)
      have hrhi : a % 62 * 2 ^ t ≤ 61 * 2 ^ t := Nat.mul_le_mul_right (2 ^ t) (by omega)
      have h61 : 61 * 2 ^ t + 2 ^ t = 62 * 2 ^ t := by ring
      have hsplit : 62 * (a / 62 * 2 ^ t) + 62 * 2 ^ t = 62 * (a / 62 * 2 ^ t + 2 ^ t) := by ring
      apply Nat.div_eq_of_lt_le
      · -- a / 62 * 2 ^ t ≤ N
        omega
      · -- N < (a / 62 + 1) * 2 ^ t
        have : (a / 62 + 1) * 2 ^ t = a / 62 * 2 ^ t + 2 ^ t := by ring
        omega

lemma pyIntDiv_ge_pow (a e' : ℕ) (h : 62 * 2 ^ e' ≤ a) : 2 ^ e' ≤ pyIntDiv a 62 := by
  have hge : 62 ≤ a := by
    have : (1 : ℕ) ≤ 2 ^ e' := Nat.one_le_two_pow
    nlinarith
  obtain ⟨hfe, hlo, hhi⟩ := flog2_ge_window a 62 (by norm_num) hge
  set E := ilog2 (a / 62) with hE
  have heE : e' ≤ E := by
    have h1 : 2 ^ e' ≤ a / 62 := (Nat.le_div_iff_mul_le (by norm_num)).mpr (by omega)
    have h2 : a / 62 < 2 ^ (E + 1) := by
      have := (ilog2_spec (a / 62) ((Nat.one_le_div_iff (by norm_num)).mpr hge)).2
      omega
    have h3 : (2 : ℕ) ^ e' < 2 ^ (E + 1) := by omega
    have := (Nat.pow_lt_pow_iff_right (show 1 < 2 by norm_num)).mp h3
    omega
  suffices hs : 2 ^ E ≤ pyIntDiv a 62 by
    calc (2 : ℕ) ^ e' ≤ 2 ^ E := Nat.pow_le_pow_right (by norm_num) heE
      _ ≤ pyIntDiv a 62 := hs
  by_cases h52 : 52 ≤ E
  · rw [pyIntDiv, if_neg (by omega), if_pos (by rw [hfe]; omega), hfe]
    rw [show ((52 : ℤ) - (E : ℤ)).toNat = 0 by omega, pow_zero, mul_one]
    rw [show ((E : ℤ) - 52).toNat = E - 52 by omega]
    set d := E - 52 with hd
    set q' := 62 * 2 ^ d with hq'
    have hq1 : 1 ≤ q' := by
      have hp := pow_pos (show (0 : ℕ) < 2 by norm_num) d
      omega
    obtain ⟨hb1, hb2⟩ := ne2_bounds a q' hq1
    have halo : q' * 2 ^ 52 ≤ a := by
      have : 62 * 2 ^ d * 2 ^ 52 = 62 * 2 ^ E := by
        rw [mul_assoc, ← pow_add]
        congr 2
        omega
      omega
    have hNge : 2 ^ 52 ≤ ne2 a q' := by
      have hq2 : 2 * q' * (2 ^ 52) ≤ 2 * q' * ne2 a q' + q' := by
        calc 2 * q' * 2 ^ 52 = 2 * (q' * 2 ^ 52) := by ring
          _ ≤ 2 * a := by omega
          _ ≤ 2 * q' * ne2 a q' + q' := hb1
      -- divide by q'
      have h2 : q' * (2 * 2 ^ 52) ≤ q' * (2 * ne2 a q' + 1) := by
        calc q' * (2 * 2 ^ 52) = 2 * q' * 2 ^ 52 := by ring
          _ ≤ 2 * q' * ne2 a q' + q' := hq2
          _ = q' * (2 * ne2 a q' + 1) := by ring
      have h3 := Nat.le_of_mul_le_mul_left h2 (by omega)
      omega
    calc (2 : ℕ) ^ E = 2 ^ 52 * 2 ^ d := by rw [← pow_add]; congr 1; omega
      _ ≤ ne2 a q' * 2 ^ d := Nat.mul_le_mul_right (2 ^ d) hNge
  · push_neg at h52
    rw [pyIntDiv, if_neg (by omega), if_neg (by rw [hfe]; omega), hfe]
    rw [show ((E : ℤ) - 52).toNat = 0 by omega, pow_zero, mul_one]
    rw [show ((52 : ℤ) - (E : ℤ)).toNat = 52 - E by omega]
    set t := 52 - E with ht
    obtain ⟨hb1, hb2⟩ := ne2_bounds (a * 2 ^ t) 62 (by norm_num)
    have hwlo : 62 * 2 ^ 52 ≤ a * 2 ^ t := by
      have hmul := Nat.mul_le_mul_right (2 ^ t) hlo
      have hpow : 2 ^ E * 2 ^ t = 2 ^ 52 := by
        rw [← pow_add]
        congr 1
        omega
      calc 62 * 2 ^ 52 = 62 * 2 ^ E * 2 ^ t := by rw [mul_assoc, hpow]
        _ ≤ a * 2 ^ t := hmul
    have hNge : 2 ^ 52 ≤ ne2 (a * 2 ^ t) 62 := by omega
    have h2t : (0 : ℕ) < 2 ^ t := by positivity
    rw [Nat.le_div_iff_mul_le h2t]
    calc (2 : ℕ) ^ E * 2 ^ t = 2 ^ 52 := by rw [← pow_add]; congr 1; omega
      _ ≤ ne2 (a * 2 ^ t) 62 := hNge

lemma alphabet_length : KEY_ALPHABET.length = 62 := rfl

lemma encodeLoop_succ_pos (fuel z : ℕ) (h : 0 < z) :
    encodeLoop (fuel + 1) z =
      KEY_ALPHABET.getD (z % KEY_ALPHABET.length) ' ' ::
        encodeLoop fuel (pyIntDiv z KEY_ALPHABET.length) := by
  rw [encodeLoop, if_pos h]

lemma encodeLoop_len_le : ∀ fuel z, (encodeLoop fuel z).length ≤ fuel := by
  intro fuel
  induction fuel with
  | zero => intro z; simp [encodeLoop]
  | succ f ih =>
    intro z
    rw [encodeLoop]
    by_cases h : 0 < z
    · rw [if_pos h]
      simpa using ih (pyIntDiv z KEY_ALPHABET.length)
    · rw [if_neg h]
      simp

lemma encodeLoop_len_full : ∀ k z, 2 ^ (6 * k + 5) ≤ z → (encodeLoop (k + 1) z).length = k + 1 := by
  intro k
  induction k with
  | zero =>
    intro z h
    norm_num at h
    rw [encodeLoop_succ_pos 0 z (by omega)]
    simp [encodeLoop]
  | succ j ih =>
    intro z h
    have hz : 0 < z := by
      have h1 : (0 : ℕ) < 2 ^ (6 * (j + 1) + 5) := by positivity
      omega
    rw [encodeLoop_succ_pos (j + 1) z hz]
    simp only [List.length_cons]
    congr 1
    rw [alphabet_length]
    apply ih
    apply pyIntDiv_ge_pow
    have h1 : (62 : ℕ) * 2 ^ (6 * j + 5) ≤ 2 ^ 6 * 2 ^ (6 * j + 5) :=
      Nat.mul_le_mul_right _ (by norm_num)
    have h2 : (2 : ℕ) ^ 6 * 2 ^ (6 * j + 5) = 2 ^ (6 * (j + 1) + 5) := by
      rw [← pow_add]
      congr 1
      ring
    omega

lemma encodeLoop_eq_exactLoop : ∀ fuel z, z ≤ 2 ^ 53 → encodeLoop fuel z = exactLoop fuel z := by
  intro fuel
  induction fuel with
  | zero => intro z _; rfl
  | succ f ih =>
    intro z h
    rw [encodeLoop, exactLoop]
    by_cases hz : 0 < z
    · rw [if_pos hz, if_pos hz, alphabet_length, pyIntDiv_eq_div z h,
        ih (z / 62) (le_trans (Nat.div_le_self z 62) h)]
    · rw [if_neg hz, if_neg hz]

lemma ne2_cases (p q : ℕ) : ne2 p q = p / q ∨ ne2 p q = p / q + 1 := by
  unfold ne2
  split_ifs <;> simp

lemma pyIntDiv_lt_overflow (a : ℕ) (h : a < 62 * (2 ^ 1024 - 2 ^ 970)) :
    pyIntDiv a 62 < 2 ^ 1024 := by
  rcases le_or_lt a (2 ^ 53) with h53 | h53
  · rw [pyIntDiv_eq_div a h53]
    calc a / 62 ≤ a := Nat.div_le_self a 62
      _ ≤ 2 ^ 53 := h53
      _ < 2 ^ 1024 := Nat.pow_lt_pow_right (by norm_num) (by norm_num)
  · have hge : 62 ≤ a := by
      have h62 : (62 : ℕ) ≤ 2 ^ 53 := by norm_num
      omega
    obtain ⟨hfe, hlo, hhi⟩ := flog2_ge_window a 62 (by norm_num) hge
    set E := ilog2 (a / 62) with hE
    have hup : a < 62 * 2 ^ 1024 := by
      have h1 : 62 * (2 ^ 1024 - 2 ^ 970) ≤ 62 * 2 ^ 1024 :=
        Nat.mul_le_mul_left 62 (Nat.sub_le _ _)
      omega
    have hEle : E ≤ 1023 := by
      by_contra hc
      push_neg at hc
      have h1 : (2 : ℕ) ^ 1024 ≤ 2 ^ E := Nat.pow_le_pow_right (by norm_num) hc
      have h2 : 62 * 2 ^ 1024 ≤ 62 * 2 ^ E := Nat.mul_le_mul_left 62 h1
      omega
    by_cases h52 : 52 ≤ E
    · rw [pyIntDiv, if_neg (by omega), if_pos (by rw [hfe]; omega), hfe,
        show ((52 : ℤ) - (E : ℤ)).toNat = 0 by omega, pow_zero, mul_one,
        show ((E : ℤ) - 52).toNat = E - 52 by omega]
      set d := E - 52 with hd
      set q' := 62 * 2 ^ d with hq'
      have hq1 : 1 ≤ q' := by
        have hp := pow_pos (show (0 : ℕ) < 2 by norm_num) d
        omega
      have hqa : a < q' * 2 ^ 53 := by
        calc a < 62 * 2 ^ (E + 1) := hhi
          _ = q' * 2 ^ 53 := by
            rw [hq', mul_assoc, ← pow_add]
            congr 2
            omega
      have hflt : a / q' < 2 ^ 53 := Nat.div_lt_of_lt_mul hqa
      rcases Nat.lt_or_ge E 1023 with hE2 | hE2
      · have hNle : ne2 a q' ≤ 2 ^ 53 := by
          rcases ne2_cases a q' with hc | hc <;> omega
        calc ne2 a q' * 2 ^ d ≤ 2 ^ 53 * 2 ^ d := Nat.mul_le_mul_right _ hNle
          _ = 2 ^ (53 + d) := by rw [← pow_add]
          _ ≤ 2 ^ 1023 := Nat.pow_le_pow_right (by norm_num) (by omega)
          _ < 2 ^ 1024 := Nat.pow_lt_pow_right (by norm_num) (by norm_num)
      · have hE3 : E = 1023 := by omega
        have hq'val : q' = 124 * 2 ^ 970 := by
          rw [hq', hd, hE3]
          rw [show (1023 : ℕ) - 52 = 971 from rfl]
          rw [show (971 : ℕ) = 970 + 1 from rfl, pow_succ]
          ring
        have hNle : ne2 a q' ≤ 2 ^ 53 - 1 := by
          by_cases hftop : a / q' = 2 ^ 53 - 1
          · have hdm := Nat.div_add_mod a q'
            have hrlt := Nat.mod_lt a (show 0 < q' by omega)
            have h2r : 2 * (a % q') < q' := by
              have e1024 : (2 : ℕ) ^ 1024 = 18014398509481984 * 2 ^ 970 := by
                rw [show (18014398509481984 : ℕ) = 2 ^ 54 by norm_num, ← pow_add]
              have e53 : (2 : ℕ) ^ 53 = 9007199254740992 := by norm_num
              rw [hftop, e53] at hdm
              rw [hq'val] at hdm hrlt ⊢
              rw [e1024] at h
              omega
            have hval : ne2 a q' = a / q' := by
              unfold ne2
              rw [if_pos h2r]
            omega
          · have hfle : a / q' ≤ 2 ^ 53 - 2 := by omega
            rcases ne2_cases a q' with hc | hc <;> omega
        calc ne2 a q' * 2 ^ d ≤ (2 ^ 53 - 1) * 2 ^ d := Nat.mul_le_mul_right _ hNle
          _ < 2 ^ 53 * 2 ^ d := by
            have hp := pow_pos (show (0 : ℕ) < 2 by norm_num) d
            have h1 : (1 : ℕ) ≤ 2 ^ 53 := Nat.one_le_two_pow
            exact (Nat.mul_lt_mul_right hp).mpr (by omega)
          _ = 2 ^ (53 + d) := by rw [← pow_add]
          _ = 2 ^ 1024 := by
            rw [hd, hE3]
    · push_neg at h52
      rw [pyIntDiv, if_neg (by omega), if_neg (by rw [hfe]; omega), hfe,
        show ((E : ℤ) - 52).toNat = 0 by omega, pow_zero, mul_one,
        show ((52 : ℤ) - (E : ℤ)).toNat = 52 - E by omega]
      obtain ⟨hb1, hb2⟩ := ne2_bounds (a * 2 ^ (52 - E)) 62 (by norm_num)
      have hwhi : a * 2 ^ (52 - E) < 62 * 2 ^ 53 := by
        have hmul := Nat.mul_le_mul_right (2 ^ (52 - E)) (show a + 1 ≤ 62 * 2 ^ (E + 1) by omega)
        have hpow : 2 ^ (E + 1) * 2 ^ (52 - E) = 2 ^ 53 := by
          rw [← pow_add]
          congr 1
          omega
        have hstep : (a + 1) * 2 ^ (52 - E) = a * 2 ^ (52 - E) + 2 ^ (52 - E) := by ring
        have hp := pow_pos (show (0 : ℕ) < 2 by norm_num) (52 - E)
        calc a * 2 ^ (52 - E) < (a + 1) * 2 ^ (52 - E) := by omega
          _ ≤ 62 * 2 ^ (E + 1) * 2 ^ (52 - E) := hmul
          _ = 62 * 2 ^ 53 := by rw [mul_assoc, hpow]
      have hNle : ne2 (a * 2 ^ (52 - E)) 62 ≤ 2 ^ 53 := by omega
      calc ne2 (a * 2 ^ (52 - E)) 62 / 2 ^ (52 - E) ≤ ne2 (a * 2 ^ (52 - E)) 62 :=
            Nat.div_le_self _ _
        _ ≤ 2 ^ 53 := hNle
        _ < 2 ^ 1024 := Nat.pow_lt_pow_right (by norm_num) (by norm_num)

lemma pyIntDiv_ge_overflow (a : ℕ) (h : 62 * (2 ^ 1024 - 2 ^ 970) ≤ a) :
    2 ^ 1024 ≤ pyIntDiv a 62 := by
  have hsub : (2 : ℕ) ^ 1023 ≤ 2 ^ 1024 - 2 ^ 970 := by
    have e1 : (2 : ℕ) ^ 1024 = 2 * 2 ^ 1023 := by
      rw [show (1024 : ℕ) = 1023 + 1 from rfl, pow_succ]
      ring
    have e2 : (2 : ℕ) ^ 970 ≤ 2 ^ 1023 := Nat.pow_le_pow_right (by norm_num) (by norm_num)
    omega
  have hT1 : 62 * 2 ^ 1023 ≤ a :=
    le_trans (Nat.mul_le_mul_left 62 hsub) h
  have hge : 62 ≤ a := by
    have h1 : (1 : ℕ) ≤ 2 ^ 1023 := Nat.one_le_two_pow
    nlinarith
  obtain ⟨hfe, hlo, hhi⟩ := flog2_ge_window a 62 (by norm_num) hge
  set E := ilog2 (a / 62) with hE
  have hEge : 1023 ≤ E := by
    have h1 : 2 ^ 1023 ≤ a / 62 := (Nat.le_div_iff_mul_le (by norm_num)).mpr (by omega)
    have h2 : a / 62 < 2 ^ (E + 1) := by
      have hd1 : 1 ≤ a / 62 := (Nat.one_le_div_iff (by norm_num)).mpr hge
      have := (ilog2_spec (a / 62) hd1).2
      omega
    have h3 : (2 : ℕ) ^ 1023 < 2 ^ (E + 1) := by omega
    have := (Nat.pow_lt_pow_iff_right (show 1 < 2 by norm_num)).mp h3
    omega
  rw [pyIntDiv, if_neg (by omega), if_pos (by rw [hfe]; omega), hfe,
    show ((52 : ℤ) - (E : ℤ)).toNat = 0 by omega, pow_zero, mul_one,
    show ((E : ℤ) - 52).toNat = E - 52 by omega]
  set d := E - 52 with hd
  set q' := 62 * 2 ^ d with hq'
  have hq1 : 1 ≤ q' := by
    have hp := pow_pos (show (0 : ℕ) < 2 by norm_num) d
    omega
  rcases Nat.lt_or_ge E 1024 with hE2 | hE2
  · have hE3 : E = 1023 := by omega
    have hq'val : q' = 124 * 2 ^ 970 := by
      rw [hq', hd, hE3]
      rw [show (1023 : ℕ) - 52 = 971 from rfl]
      rw [show (971 : ℕ) = 970 + 1 from rfl, pow_succ]
      ring
    have hdm := Nat.div_add_mod a q'
    have hrlt := Nat.mod_lt a (show 0 < q' by omega)
    have hqa : a < q' * 2 ^ 53 := by
      calc a < 62 * 2 ^ (E + 1) := hhi
        _ = q' * 2 ^ 53 := by
          rw [hq', mul_assoc, ← pow_add]
          congr 2
          omega
    have hflt : a / q' < 2 ^ 53 := Nat.div_lt_of_lt_mul hqa
    have e1024 : (2 : ℕ) ^ 1024 = 18014398509481984 * 2 ^ 970 := by
      rw [show (18014398509481984 : ℕ) = 2 ^ 54 by norm_num, ← pow_add]
    have e53 : (2 : ℕ) ^ 53 = 9007199254740992 := by norm_num
    have hPf : q' * (a / q') ≤ q' * (2 ^ 53 - 1) := Nat.mul_le_mul_left q' (by omega)
    have h2r : q' ≤ 2 * (a % q') := by
      rw [hq'val] at hdm hrlt hPf ⊢
      rw [e53] at hPf
      rw [e1024] at h
      omega
    have hfge : 2 ^ 53 - 1 ≤ a / q' := by
      by_contra hcon
      push_neg at hcon
      have hPf2 : q' * (a / q') + q' ≤ q' * (2 ^ 53 - 1) := by
        have hstep : q' * (a / q') + q' = q' * (a / q' + 1) := by ring
        rw [hstep]
        exact Nat.mul_le_mul_left q' (by omega)
      rw [hq'val] at hdm hrlt hPf2
      rw [e53] at hPf2
      rw [e1024] at h
      omega
    have hf : a / q' = 2 ^ 53 - 1 := by omega
    have hNval : ne2 a q' = 2 ^ 53 := by
      unfold ne2
      rw [if_neg (by omega)]
      by_cases htie : q' < 2 * (a % q')
      · rw [if_pos htie, hf]
        have h1 : (1 : ℕ) ≤ 2 ^ 53 := Nat.one_le_two_pow
        omega
      · rw [if_neg htie, hf]
        rw [if_neg (by norm_num)]
        have h1 : (1 : ℕ) ≤ 2 ^ 53 := Nat.one_le_two_pow
        omega
    rw [hNval]
    apply le_of_eq
    rw [hd, hE3, ← pow_add]
  · obtain ⟨hb1, hb2⟩ := ne2_bounds a q' hq1
    have halo : q' * 2 ^ 52 ≤ a := by
      calc q' * 2 ^ 52 = 62 * 2 ^ E := by
            rw [hq', mul_assoc, ← pow_add]
            congr 2
            omega
        _ ≤ a := hlo
    have hNge : 2 ^ 52 ≤ ne2 a q' := by
      have h2 : q' * (2 * 2 ^ 52) ≤ q' * (2 * ne2 a q' + 1) := by
        calc q' * (2 * 2 ^ 52) = 2 * (q' * 2 ^ 52) := by ring
          _ ≤ 2 * a := by omega
          _ ≤ 2 * q' * ne2 a q' + q' := hb1
          _ = q' * (2 * ne2 a q' + 1) := by ring
      have h3 := Nat.le_of_mul_le_mul_left h2 (by omega)
      omega
    calc (2 : ℕ) ^ 1024 ≤ 2 ^ E := Nat.pow_le_pow_right (by norm_num) hE2
      _ = 2 ^ 52 * 2 ^ d := by
        rw [← pow_add]
        congr 1
        omega
      _ ≤ ne2 a q' * 2 ^ d := Nat.mul_le_mul_right _ hNge

lemma pyIntDivO_eq_some (a b q : ℕ) (h : pyIntDivO a b = some q) : q = pyIntDiv a b := by
  by_cases hc : 2 ^ 1024 ≤ pyIntDiv a b
  · rw [pyIntDivO, if_pos hc] at h
    simp at h
  · rw [pyIntDivO, if_neg hc] at h
    exact (Option.some_inj.mp h).symm

lemma encodeLoopO_eq_some : ∀ fuel z t, encodeLoopO fuel z = some t → t = encodeLoop fuel z := by
  intro fuel
  induction fuel with
  | zero =>
    intro z t h
    rw [encodeLoopO] at h
    rw [encodeLoop]
    exact (Option.some_inj.mp h).symm
  | succ f ih =>
    intro z t h
    rw [encodeLoopO] at h
    rw [encodeLoop]
    by_cases hz : 0 < z
    · rw [if_pos hz] at h
      rw [if_pos hz]
      rcases hdiv : pyIntDivO z KEY_ALPHABET.length with _ | q
      · rw [hdiv] at h
        simp at h
      · rw [hdiv] at h
        rw [Option.some_bind] at h
        obtain ⟨t', ht', rfl⟩ := Option.map_eq_some'.mp h
        have hq := pyIntDivO_eq_some z KEY_ALPHABET.length q hdiv
        subst hq
        rw [ih _ t' ht']
    · rw [if_neg hz] at h
      rw [if_neg hz]
      exact (Option.some_inj.mp h).symm

lemma encodeLoopO_safe : ∀ fuel z, z < 62 * (2 ^ 1024 - 2 ^ 970) →
    encodeLoopO fuel z = some (encodeLoop fuel z) := by
  intro fuel
  induction fuel with
  | zero =>
    intro z _
    rw [encodeLoopO, encodeLoop]
  | succ f ih =>
    intro z h
    rw [encodeLoopO, encodeLoop]
    by_cases hz : 0 < z
    · rw [if_pos hz, if_pos hz]
      have hov : ¬ 2 ^ 1024 ≤ pyIntDiv z KEY_ALPHABET.length := by
        rw [alphabet_length]
        push_neg
        exact pyIntDiv_lt_overflow z h
      rw [pyIntDivO, if_neg hov, Option.some_bind]
      have hq : pyIntDiv z KEY_ALPHABET.length < 62 * (2 ^ 1024 - 2 ^ 970) := by
        rw [alphabet_length]
        have h1 : pyIntDiv z 62 < 2 ^ 1024 := pyIntDiv_lt_overflow z h
        have h2 : (2 : ℕ) ^ 1024 ≤ 62 * (2 ^ 1024 - 2 ^ 970) := by
          have e1 : (2 : ℕ) ^ 1024 = 2 * 2 ^ 1023 := by
            rw [show (1024 : ℕ) = 1023 + 1 from rfl, pow_succ]
            ring
          have e2 : (2 : ℕ) ^ 970 ≤ 2 ^ 1023 := Nat.pow_le_pow_right (by norm_num) (by norm_num)
          omega
        omega
      rw [ih _ hq, Option.map_some']
    · rw [if_neg hz, if_neg hz]

/-- C9: the emitted document is a fixed constant — the model takes no input
and reads no environment (and the 4 ms pacing delay writes nothing), so the
process output is byte-identical across runs; this theorem exhibits the full
line-by-line output for the range 1..20. -/
theorem emitted_fixed : emitted =
    ["<doc id=\"foo\">", "<p id=\"par1\">", "1\tb\tdata:1", "2\tc\tdata:2", "<m/>",
      "3\td\tdata:3", "4\te\tdata:4", "5\tf\tdata:5", "<nl />", "6\tg\tdata:6",
      "7\th\tdata:7", "<m/>", "8\ti\tdata:8", "9\tj\tdata:9", "10\tk\tdata:10",
      "<nl />", "</p>", "<p id=\"par2\">", "11\tl\tdata:11", "12\tm\tdata:12",
      "<m/>", "13\tn\tdata:13", "14\to\tdata:14", "15\tp\tdata:15", "<nl />",
      "16\tq\tdata:16", "17\tr\tdata:17", "<m/>", "18\ts\tdata:18",
      "19\tt\tdata:19", "20\tu\tdata:20", "<nl />", "</doc>"] := by
  decide

/-- C1 (counterexample): the claim says that after the loop the emitter
prints one final paragraph-closing tag and then the root-closing tag, i.e.
that the last two lines are `</p>`, `</doc>`.  That is false: the line before
the final `</doc>` is the `<nl />` marker of i = 20 — the script never closes
the last paragraph. -/
theorem no_final_par_close :
    ¬ (emitted.getD (emitted.length - 2) "" = "</p>" ∧
        emitted.getD (emitted.length - 1) "" = "</doc>") := by
  decide

/-- C1 (amended): after the loop the emitter prints only the root-closing
tag `</doc>`.  A `</p>` appears exactly once, immediately before the second
paragraph opens, so the first block of 10 data lines is enclosed by a
`<p>`/`</p>` pair but the last block is never closed. -/
theorem final_close_only_doc :
    emitted.count "</p>" = 1 ∧ emitted.getD 16 "" = "</p>" ∧
      emitted.getD 17 "" = "<p id=\"par2\">" ∧
      emitted.getD (emitted.length - 1) "" = "</doc>" ∧
      emitted.getD (emitted.length - 2) "" = "<nl />" := by
  decide

/-- C2: for every n in [1, 61] the inverse mixed-radix transform (alphabet
index of each symbol, weighted by 62^position, summed) reconstructs n from
the token produced by encode_num. -/
theorem encode_roundtrip_small (n : ℕ) (h1 : 1 ≤ n) (h2 : n ≤ 61) :
    decode (encode_num n) = n := by
  have hall : ∀ m, m < 62 → 1 ≤ m → decode (encode_num m) = m := by decide
  exact hall n (by omega) h1

theorem encode_roundtrip_small_witness :
    1 ≤ 61 ∧ 61 ≤ 61 ∧ decode (encode_num 61) = 61 :=
  ⟨by norm_num, by norm_num, encode_roundtrip_small 61 (by norm_num) (by norm_num)⟩

/-- C3: encode_num returns the empty token exactly on input 0 — the loop
guard requires a positive value, and any positive value contributes at least
one symbol. -/
theorem encode_empty_iff_zero (n : ℕ) : encode_num n = [] ↔ n = 0 := by
  constructor
  · intro h
    by_contra hn
    have hpos : 0 < n := Nat.pos_of_ne_zero hn
    have he : encode_num n = encodeLoop (7 + 1) n := rfl
    rw [he, encodeLoop_succ_pos 7 n hpos] at h
    simp at h
  · intro h
    subst h
    rfl

/-- C4 (counterexample): the claim says every input of at least 62^8 yields
a token of exactly 8 symbols.  At 62·(2^1024 − 2^970) — the smallest input
whose quotient rounds to 2^1024, past the largest finite double — the very
first `int(hex_num / 62)` raises OverflowError, so the program returns no
token at all: the loop stops neither at value 0 nor at the 8-symbol cap. -/
theorem encode_overflow_cex :
    62 ^ 8 ≤ 62 * (2 ^ 1024 - 2 ^ 970) ∧
      encode_numO (62 * (2 ^ 1024 - 2 ^ 970)) = none := by
  constructor
  · have h1 : (62 : ℕ) ^ 8 ≤ 2 ^ 1023 := by
      calc (62 : ℕ) ^ 8 ≤ 2 ^ 48 := by norm_num
        _ ≤ 2 ^ 1023 := Nat.pow_le_pow_right (by norm_num) (by norm_num)
    have h2 : (2 : ℕ) ^ 1023 ≤ 2 ^ 1024 - 2 ^ 970 := by
      have e1 : (2 : ℕ) ^ 1024 = 2 * 2 ^ 1023 := by
        rw [show (1024 : ℕ) = 1023 + 1 from rfl, pow_succ]
        ring
      have e2 : (2 : ℕ) ^ 970 ≤ 2 ^ 1023 := Nat.pow_le_pow_right (by norm_num) (by norm_num)
      omega
    have h3 : 1 * (2 ^ 1024 - 2 ^ 970) ≤ 62 * (2 ^ 1024 - 2 ^ 970) :=
      Nat.mul_le_mul_right _ (by norm_num)
    omega
  · have hT : 62 * (2 ^ 1024 - 2 ^ 970) ≤ 62 * (2 ^ 1024 - 2 ^ 970) := le_rfl
    have hpos : 0 < 62 * (2 ^ 1024 - 2 ^ 970) := by
      apply Nat.mul_pos (by norm_num)
      have h1 : (2 : ℕ) ^ 970 < 2 ^ 1024 := Nat.pow_lt_pow_right (by norm_num) (by norm_num)
      omega
    have he : encode_numO (62 * (2 ^ 1024 - 2 ^ 970)) =
        encodeLoopO (7 + 1) (62 * (2 ^ 1024 - 2 ^ 970)) := rfl
    rw [he, encodeLoopO, if_pos hpos, pyIntDivO, alphabet_length,
      if_pos (pyIntDiv_ge_overflow _ hT)]
    rfl

/-- C4 (amended): any token the program returns has at most 8 symbols, and
every input of at least 62^8 (more than 8 base-62 digits) and below the
OverflowError threshold 62·(2^1024 − 2^970) produces a token of exactly 8
symbols — the loop stops at the symbol cap before the value reaches 0; at
the threshold and above, `int(hex_num / 62)` overflows the double range on
the first iteration, the program raises, and no token is returned. -/
theorem encode_len_bounds_amended (n : ℕ) :
    (∀ t, encode_numO n = some t → t.length ≤ 8) ∧
      (62 ^ 8 ≤ n → n < 62 * (2 ^ 1024 - 2 ^ 970) →
        encode_numO n = some (encode_num n) ∧ (encode_num n).length = 8) ∧
      (62 * (2 ^ 1024 - 2 ^ 970) ≤ n → encode_numO n = none) := by
  refine ⟨?_, ?_, ?_⟩
  · intro t ht
    rw [encodeLoopO_eq_some 8 n t ht]
    exact encodeLoop_len_le 8 n
  · intro h1 h2
    refine ⟨encodeLoopO_safe 8 n h2, ?_⟩
    have h47 : 2 ^ (6 * 7 + 5) ≤ n := by
      have hp : (2 : ℕ) ^ 47 ≤ 62 ^ 8 := by norm_num
      norm_num at hp ⊢
      omega
    exact encodeLoop_len_full 7 n h47
  · intro hT
    have hpos : 0 < n := by
      have h2 : (0 : ℕ) < 62 * (2 ^ 1024 - 2 ^ 970) := by
        apply Nat.mul_pos (by norm_num)
        have h1 : (2 : ℕ) ^ 970 < 2 ^ 1024 := Nat.pow_lt_pow_right (by norm_num) (by norm_num)
        omega
      omega
    have he : encode_numO n = encodeLoopO (7 + 1) n := rfl
    rw [he, encodeLoopO, if_pos hpos, pyIntDivO, alphabet_length,
      if_pos (pyIntDiv_ge_overflow n hT)]
    rfl

theorem encode_len_bounds_amended_witness :
    62 ^ 8 ≤ 62 ^ 8 ∧ 62 ^ 8 < 62 * (2 ^ 1024 - 2 ^ 970) ∧
      encode_numO (62 ^ 8) = some (encode_num (62 ^ 8)) ∧
      (encode_num (62 ^ 8)).length = 8 := by
  have hlt : (62 : ℕ) ^ 8 < 62 * (2 ^ 1024 - 2 ^ 970) := by
    have h1 : (62 : ℕ) ^ 8 < 2 ^ 1023 := by
      calc (62 : ℕ) ^ 8 ≤ 2 ^ 48 := by norm_num
        _ < 2 ^ 1023 := Nat.pow_lt_pow_right (by norm_num) (by norm_num)
    have h2 : (2 : ℕ) ^ 1023 ≤ 2 ^ 1024 - 2 ^ 970 := by
      have e1 : (2 : ℕ) ^ 1024 = 2 * 2 ^ 1023 := by
        rw [show (1024 : ℕ) = 1023 + 1 from rfl, pow_succ]
        ring
      have e2 : (2 : ℕ) ^ 970 ≤ 2 ^ 1023 := Nat.pow_le_pow_right (by norm_num) (by norm_num)
      omega
    have h3 : 1 * (2 ^ 1024 - 2 ^ 970) ≤ 62 * (2 ^ 1024 - 2 ^ 970) :=
      Nat.mul_le_mul_right _ (by norm_num)
    omega
  exact ⟨le_rfl, hlt, (encode_len_bounds_amended (62 ^ 8)).2.1 le_rfl hlt⟩

/-- C5 (counterexample): the claim says negative inputs are rejected with an
InvalidInput error.  In the code there is no rejection: the loop guard simply
fails, and the encoder silently returns the empty token — the same ordinary
result it returns for input 0. -/
theorem encode_negative_cex :
    encode_numZ (-5) = [] ∧ encode_numZ (-5) = encode_numZ 0 := by
  exact ⟨rfl, rfl⟩

/-- C5 (amended): for every negative input the encoder silently returns the
empty string (the loop guard `hex_num > 0` fails immediately); no error of
any kind is signalled. -/
theorem encode_negative_empty (z : ℤ) (h : z < 0) : encode_numZ z = [] := by
  have he : encode_numZ z = encodeLoopZ (7 + 1) z := rfl
  rw [he, encodeLoopZ, if_neg (by omega)]

theorem encode_negative_empty_witness : (-7 : ℤ) < 0 ∧ encode_numZ (-7) = [] :=
  ⟨by norm_num, encode_negative_empty (-7) (by norm_num)⟩

/-- C6: the run for 1..20 produces exactly two paragraph-opening tags, with
identifiers par1 and par2 in that order, and each block contains exactly the
10 data lines `{i}\t{token}\tdata:{i}` for its range of i (tokens are the
single alphabet symbols b..u for i = 1..20). -/
theorem emitted_block_structure :
    emitted.filter (fun s => isPOpen s) =
        ["<p id=\"par1\">", "<p id=\"par2\">"] ∧
      (blockLines 1).filter (fun s => isDataLine s) =
        ["1\tb\tdata:1", "2\tc\tdata:2", "3\td\tdata:3", "4\te\tdata:4",
          "5\tf\tdata:5", "6\tg\tdata:6", "7\th\tdata:7", "8\ti\tdata:8",
          "9\tj\tdata:9", "10\tk\tdata:10"] ∧
      (blockLines 2).filter (fun s => isDataLine s) =
        ["11\tl\tdata:11", "12\tm\tdata:12", "13\tn\tdata:13", "14\to\tdata:14",
          "15\tp\tdata:15", "16\tq\tdata:16", "17\tr\tdata:17", "18\ts\tdata:18",
          "19\tt\tdata:19", "20\tu\tdata:20"] := by
  decide

/-- C7: in the emitted document the line immediately after the data line of i
is the `<nl />` marker exactly when i mod 5 = 0, the `<m/>` marker exactly
when i mod 5 = 2, and the two conditions exclude each other. -/
theorem marker_positions (i : ℕ) (h1 : 1 ≤ i) (h2 : i ≤ 20) :
    (lineAfter (dataLine i) = some "<nl />" ↔ i % 5 = 0) ∧
      (lineAfter (dataLine i) = some "<m/>" ↔ i % 5 = 2) ∧
      ¬ (i % 5 = 0 ∧ i % 5 = 2) := by
  have hall : ∀ m, m < 21 → 1 ≤ m →
      ((lineAfter (dataLine m) = some "<nl />" ↔ m % 5 = 0) ∧
        (lineAfter (dataLine m) = some "<m/>" ↔ m % 5 = 2) ∧
        ¬ (m % 5 = 0 ∧ m % 5 = 2)) := by
    decide
  exact hall i (by omega) h1

theorem marker_positions_witness :
    1 ≤ 5 ∧ 5 ≤ 20 ∧ (lineAfter (dataLine 5) = some "<nl />" ↔ 5 % 5 = 0) :=
  ⟨by norm_num, by norm_num, (marker_positions 5 (by norm_num) (by norm_num)).1⟩

/-- C8: the alphabet has exactly 62 pairwise-distinct one-character symbols
in the fixed order a..z, A..Z, 0..9.  (It is a plain definition, never
rebound: every lookup in encode_num reads this same sequence.) -/
theorem alphabet_fixed :
    KEY_ALPHABET.length = 62 ∧ KEY_ALPHABET.Nodup ∧
      KEY_ALPHABET =
        "abcdefghijklmnopqrstuvwxyzABCDEFGHIJKLMNOPQRSTUVWXYZ0123456789".toList := by
  refine ⟨rfl, by decide, by decide⟩

/-- C10: the quotient update `int(hex_num / 62)` (float division, then
truncation) agrees with exact floor division for every value up to 2^53, so
for 1 ≤ n ≤ 2^53 the token digits are the true base-62 digits of n; above
2^53 the float quotient can deviate — at 62·2^57 − 1 the double rounds up
and the computed quotient exceeds the exact one. -/
theorem float_div_exact_below_53 :
    (∀ a : ℕ, a ≤ 2 ^ 53 → pyIntDiv a 62 = a / 62) ∧
      (∀ n : ℕ, 1 ≤ n → n ≤ 2 ^ 53 → encode_num n = encodeExact n) ∧
      pyIntDiv (62 * 2 ^ 57 - 1) 62 ≠ (62 * 2 ^ 57 - 1) / 62 := by
  refine ⟨pyIntDiv_eq_div, fun n h1 h2 => encodeLoop_eq_exactLoop 8 n h2, ?_⟩
  decide

theorem float_div_exact_below_53_witness :
    (2 : ℕ) ^ 53 ≤ 2 ^ 53 ∧ pyIntDiv (2 ^ 53) 62 = 2 ^ 53 / 62 :=
  ⟨le_rfl, float_div_exact_below_53.1 (2 ^ 53) le_rfl⟩
